import Mathlib

/-!
Shallow embedding of the Loopai ingestion service (src/Loopai/main.py) and
proofs about its scheduling, batching, validation and status-aggregation
logic.

Modelling conventions:
- Python dicts (`ingestion_jobs`, the per-job `batches` dict) are embedded as
  insertion-ordered association lists, matching CPython's insertion-ordered
  dict semantics.
- `heapq` with `heappush`/`heappop` maintains a min-heap over tuples compared
  lexicographically; its observable behaviour is exactly "pop a least element
  of the multiset", so the queue is embedded as a list and `heapPop` removes a
  least entry under the Python tuple order `entryLt`.
- Python string comparison is code-point lexicographic and list comparison is
  elementwise lexicographic; both are embedded by `lexListLt`.
- `uuid.uuid4()` produces fresh identifiers with no ordering guarantee; the
  generated identifiers are passed in as explicit parameters, with freshness
  and distinctness as hypotheses where the surrounding code relies on them.
- `asyncio.sleep` delays are modelled as logical time in deciseconds
  (`asyncio.sleep(1)` = 10 units, `asyncio.sleep(5)` = 50 units) for the
  rate-limit property.
-/

namespace Loopai

/-- Priority enum from main.py (`class Priority`). -/
inductive Priority where
  | HIGH
  | MEDIUM
  | LOW
deriving DecidableEq, Repr

/-- Priority-to-rank mapping used at enqueue time in `ingest_data`:
`{"HIGH": 0, "MEDIUM": 1, "LOW": 2}`. -/
def priorityValue : Priority → Int
  | .HIGH => 0
  | .MEDIUM => 1
  | .LOW => 2

/-- Batch/job status enum from main.py (`class BatchStatus`); the code reuses
the same enum for the aggregate job status. -/
inductive BatchStatus where
  | YET_TO_START
  | TRIGGERED
  | COMPLETED
deriving DecidableEq, Repr

/-- Numeric rank of a status along the lifecycle order
YET_TO_START < TRIGGERED < COMPLETED. -/
def statusRank : BatchStatus → Nat
  | .YET_TO_START => 0
  | .TRIGGERED => 1
  | .COMPLETED => 2

/-- Lexicographic strict comparison of lists over a linear order; this is the
comparison Python uses for lists, and (at `Char`, by code point) for strings. -/
def lexListLt {α : Type} [LinearOrder α] : List α → List α → Bool
  | _, [] => false
  | [], _ :: _ => true
  | a :: as, b :: bs => if a < b then true else if b < a then false else lexListLt as bs

/-- Python string comparison: code-point lexicographic on the characters. -/
def strLt (a b : String) : Bool := lexListLt a.data b.data

/-- Strict comparison of Python ints (arbitrary-precision integers). -/
def intLtb (a b : Int) : Bool := decide (a < b)

/-- One batch as stored in a job's `batches` dict:
`{"ids": batch_ids, "status": BatchStatus.YET_TO_START}`. -/
structure Batch where
  ids : List Int
  status : BatchStatus
deriving DecidableEq, Repr

/-- One job as stored in `ingestion_jobs`: `{"status": ..., "batches": ...,
"created_time": ..., "priority": ...}`. The `batches` dict is an
insertion-ordered association list keyed by batch id. -/
structure Job where
  status : BatchStatus
  batches : List (String × Batch)
  createdTime : Nat
  priority : Priority
deriving DecidableEq, Repr

/-- One element of `task_queue`: the tuple
`(-priority_value, ingestion_id, batch_id, batch["ids"])` pushed by
`ingest_data`. -/
structure QueueEntry where
  negPriority : Int
  ingestionId : String
  batchId : String
  ids : List Int
deriving DecidableEq, Repr

/-- The shared mutable state of main.py: the `ingestion_jobs` dict, the
`task_queue` heap, and which batch (if any) the worker currently has in
flight between the two status writes of `process_batch` (the `is_processing`
flag holds exactly when this is `some`). -/
structure SysState where
  ingestionJobs : List (String × Job)
  taskQueue : List QueueEntry
  inFlight : Option (String × String)
deriving DecidableEq, Repr

/-- Body of a `POST /ingest` request (`class IngestionRequest`); pydantic's
`conlist(int, min_items=1, max_items=1000)` bounds the length. -/
structure IngestionRequest where
  ids : List Int
  priority : Priority
deriving DecidableEq, Repr

/-- An `HTTPException(status_code=..., detail=...)` raised by a handler. -/
structure HttpError where
  statusCode : Nat
  detail : String
deriving DecidableEq, Repr

/-- Three-way comparison derived from a strict Bool comparison, mirroring how
Python decides `<`, `>` or equality on a tuple component. -/
def cmpOfLt {α : Type} (ltb : α → α → Bool) (a b : α) : Ordering :=
  if ltb a b then .lt else if ltb b a then .gt else .eq

/-- Python's lexicographic comparison of the heap tuples
`(-priority_value, ingestion_id, batch_id, ids)`. -/
def entryCmp (a b : QueueEntry) : Ordering :=
  (cmpOfLt intLtb a.negPriority b.negPriority).then
    ((cmpOfLt strLt a.ingestionId b.ingestionId).then
      ((cmpOfLt strLt a.batchId b.batchId).then
        (cmpOfLt lexListLt a.ids b.ids)))

/-- Strict order in which `heapq` ranks two queue entries. -/
def entryLt (a b : QueueEntry) : Bool := entryCmp a b == Ordering.lt

/-- Least entry of a nonempty collection under `entryLt`; `heapq.heappop`
always returns a least element of the heap's multiset of tuples. -/
def minEntry (x : QueueEntry) : List QueueEntry → QueueEntry
  | [] => x
  | y :: ys => minEntry (if entryLt y x then y else x) ys

/-- The observable behaviour of `heapq.heappop(task_queue)`: on a nonempty
queue it removes and returns a least tuple under Python's tuple order.
Returns `none` on an empty queue (the worker loop never pops then). -/
def heapPop : List QueueEntry → Option (QueueEntry × List QueueEntry)
  | [] => none
  | x :: xs => some (minEntry x xs, (x :: xs).erase (minEntry x xs))

/-- A `heapq.heappush` appends the entry to the queue's multiset (the heap's
internal array layout is irrelevant to `heapPop`). -/
def heapPush (q : List QueueEntry) (e : QueueEntry) : List QueueEntry := q ++ [e]

/-- Validation predicate from `ingest_data`: `1 <= id <= 10**9 + 7`. -/
def validId (id : Int) : Bool := decide (1 ≤ id) && decide (id ≤ 10 ^ 9 + 7)

/-- First id of the request that fails validation, if any; `ingest_data`
raises its 400 error at the first offending id of the loop. -/
def findInvalidId : List Int → Option Int
  | [] => none
  | id :: rest => if validId id then findInvalidId rest else some id

/-- Batch splitting from `ingest_data`: `request.ids[i:i+3]` for
`i in range(0, len(request.ids), 3)` — consecutive groups of 3, the last
group possibly smaller. -/
def makeBatchLists : List Int → List (List Int)
  | [] => []
  | [a] => [[a]]
  | [a, b] => [[a, b]]
  | a :: b :: c :: rest => [a, b, c] :: makeBatchLists rest

/-- The `batches` dict built by `ingest_data`: one fresh uuid key per group of
ids, each with status `YET_TO_START`, in creation order. -/
def mkBatches (batchIds : List String) (groups : List (List Int)) : List (String × Batch) :=
  (batchIds.zip groups).map fun p => (p.1, { ids := p.2, status := .YET_TO_START })

/-- Generic dict read `d[k]` on an insertion-ordered association list (keys
are unique in a Python dict, so the first binding is the binding). -/
def dictFind {β : Type} (l : List (String × β)) (k : String) : Option β :=
  (l.find? fun p => p.1 == k).map fun p => p.2

/-- Generic dict value update `d[k] = f(d[k])`: rewrite the value bound to
`k`, keeping insertion order, leaving other keys alone. -/
def dictMapAt {β : Type} (l : List (String × β)) (k : String) (f : β → β) :
    List (String × β) :=
  l.map fun p => if p.1 = k then (p.1, f p.2) else p

/-- Dict lookup `ingestion_jobs[k]`. -/
def lookupJob (jobs : List (String × Job)) (k : String) : Option Job := dictFind jobs k

/-- Dict lookup `job["batches"][k]`. -/
def lookupBatch (batches : List (String × Batch)) (k : String) : Option Batch :=
  dictFind batches k

/-- Status of batch `batchId` of job `ingestionId`, as read through the two
dict lookups `ingestion_jobs[ingestion_id]["batches"][batch_id]["status"]`. -/
def batchStatusOf (jobs : List (String × Job)) (ingestionId batchId : String) :
    Option BatchStatus :=
  (lookupJob jobs ingestionId).bind fun j => (lookupBatch j.batches batchId).map fun b => b.status

/-- The `POST /ingest` handler `ingest_data`. The fresh `uuid.uuid4()` values
for the job and its batches are passed in explicitly (`ingestionId`,
`batchIds`), as is `time.time()` (`now`). On a validation failure the
`HTTPException` aborts the handler before any global state is touched, so the
error branch carries no state. -/
def ingest_data (st : SysState) (req : IngestionRequest) (ingestionId : String)
    (batchIds : List String) (now : Nat) : Except HttpError (SysState × String) :=
  match findInvalidId req.ids with
  | some badId =>
    .error { statusCode := 400, detail := "ID " ++ toString badId ++ " out of valid range" }
  | none =>
    let batches := mkBatches batchIds (makeBatchLists req.ids)
    let job : Job :=
      { status := .YET_TO_START, batches := batches, createdTime := now,
        priority := req.priority }
    let entries := batches.map fun p =>
      { negPriority := -(priorityValue req.priority), ingestionId := ingestionId,
        batchId := p.1, ids := p.2.ids : QueueEntry }
    let st2 : SysState :=
      { ingestionJobs := st.ingestionJobs ++ [(ingestionId, job)],
        taskQueue := entries.foldl heapPush st.taskQueue,
        inFlight := st.inFlight }
    .ok (st2, ingestionId)

/-- One line of the `GET /status` response's `batches` array. -/
structure StatusBatch where
  batchId : String
  ids : List Int
  status : BatchStatus
deriving DecidableEq, Repr

/-- The `GET /status/{ingestion_id}` 200 response body. -/
structure StatusResponse where
  ingestionId : String
  status : BatchStatus
  batches : List StatusBatch
deriving DecidableEq, Repr

/-- The `GET /status/{ingestion_id}` handler `get_status`. -/
def get_status (st : SysState) (ingestionId : String) : Except HttpError StatusResponse :=
  match lookupJob st.ingestionJobs ingestionId with
  | none => .error { statusCode := 404, detail := "Ingestion ID not found" }
  | some job =>
    .ok { ingestionId := ingestionId, status := job.status,
          batches := job.batches.map fun p =>
            { batchId := p.1, ids := p.2.ids, status := p.2.status } }

/-- Aggregation rule of `update_ingestion_status` as a pure function of the
batch statuses: all COMPLETED → COMPLETED, else any TRIGGERED → TRIGGERED,
else YET_TO_START. -/
def computeStatus (statuses : List BatchStatus) : BatchStatus :=
  if statuses.all fun s => s == .COMPLETED then .COMPLETED
  else if statuses.any fun s => s == .TRIGGERED then .TRIGGERED
  else .YET_TO_START

/-- The body of `update_ingestion_status` on one job: recompute the aggregate
`status` field from the statuses of the job's batches; the batches themselves
are untouched. -/
def update_ingestion_status (job : Job) : Job :=
  { job with status := computeStatus (job.batches.map fun p => p.2.status) }

/-- The store-level effect of `update_ingestion_status(ingestion_id)`. -/
def updateJobStatus (jobs : List (String × Job)) (ingestionId : String) :
    List (String × Job) :=
  dictMapAt jobs ingestionId update_ingestion_status

/-- The batch-status write
`ingestion_jobs[ingestion_id]["batches"][batch_id]["status"] = s`
performed by `process_batch`. -/
def setBatchStatus (jobs : List (String × Job)) (ingestionId batchId : String)
    (s : BatchStatus) : List (String × Job) :=
  dictMapAt jobs ingestionId fun j =>
    { j with batches := dictMapAt j.batches batchId fun b => { b with status := s } }

/-- State of `ingest_data` after a request: the new state on success, the old
state when the `HTTPException` aborted the handler (the validation loop runs
before any mutation of `ingestion_jobs` or `task_queue`). -/
def runIngest (st : SysState) (req : IngestionRequest) (ingestionId : String)
    (batchIds : List String) (now : Nat) : SysState :=
  match ingest_data st req ingestionId batchIds now with
  | .ok p => p.1
  | .error _ => st

/-- Key identifying a queue entry's target batch. -/
def entryKey (e : QueueEntry) : String × String := (e.ingestionId, e.batchId)

/-- Atomic state transitions of main.py, at the granularity visible to
status readers (`get_status` takes no lock, so the mid-processing TRIGGERED
write of `process_batch` is an observable intermediate state):

* `ingest`: a successful `POST /ingest`. `uuid.uuid4()` guarantees the fresh
  job id is unused and the batch ids are pairwise distinct; both appear as
  hypotheses.
* `startBatch`: the worker pops the least queue entry and `process_batch`
  writes `TRIGGERED` (the `is_processing` flag — here `inFlight` — is clear,
  and becomes set).
* `finishBatch`: `process_batch` writes `COMPLETED` for the in-flight batch
  and calls `update_ingestion_status(ingestion_id)`. -/
inductive Step : SysState → SysState → Prop
  | ingest (st : SysState) (req : IngestionRequest) (ingestionId : String)
      (batchIds : List String) (now : Nat) (st2 : SysState) (rid : String)
      (hfresh : lookupJob st.ingestionJobs ingestionId = none)
      (hnodup : batchIds.Nodup)
      (hlen : batchIds.length = (makeBatchLists req.ids).length)
      (hok : ingest_data st req ingestionId batchIds now = .ok (st2, rid)) :
      Step st st2
  | startBatch (st : SysState) (e : QueueEntry) (rest : List QueueEntry)
      (hidle : st.inFlight = none)
      (hpop : heapPop st.taskQueue = some (e, rest)) :
      Step st { ingestionJobs := setBatchStatus st.ingestionJobs e.ingestionId e.batchId .TRIGGERED,
                taskQueue := rest,
                inFlight := some (e.ingestionId, e.batchId) }
  | finishBatch (st : SysState) (ingestionId batchId : String)
      (hbusy : st.inFlight = some (ingestionId, batchId)) :
      Step st { ingestionJobs := updateJobStatus
                  (setBatchStatus st.ingestionJobs ingestionId batchId .COMPLETED) ingestionId,
                taskQueue := st.taskQueue,
                inFlight := none }

/-- Initial state of the module: empty `ingestion_jobs`, empty `task_queue`,
worker idle. -/
def initState : SysState := { ingestionJobs := [], taskQueue := [], inFlight := none }

/-- States reachable from module start through the modelled operations. -/
def Reachable (st : SysState) : Prop := Relation.ReflTransGen Step initState st

/-- Structural invariant tying the queue and the in-flight marker to the
batch statuses stored in `ingestion_jobs`. -/
structure Inv (st : SysState) : Prop where
  queued_yts : ∀ e ∈ st.taskQueue,
    batchStatusOf st.ingestionJobs e.ingestionId e.batchId = some .YET_TO_START
  inflight_trig : ∀ iid bid, st.inFlight = some (iid, bid) →
    batchStatusOf st.ingestionJobs iid bid = some .TRIGGERED
  keys_nodup : (st.taskQueue.map entryKey).Nodup
  inflight_not_queued : ∀ iid bid, st.inFlight = some (iid, bid) →
    (iid, bid) ∉ st.taskQueue.map entryKey

/-- Logical duration, in deciseconds, of `process_batch` on one batch:
`simulate_external_api` sleeps 1 second per id. -/
def batchDuration (ids : List Int) : Nat := 10 * ids.length

/-- Logical start times (deciseconds) at which the worker loop of
`process_queue` begins processing each of a backlog of batches: after each
batch it runs `process_batch` (1 s per id) and then `asyncio.sleep(5)`. -/
def startTimesFrom (t : Nat) : List (List Int) → List Nat
  | [] => []
  | b :: bs => t :: startTimesFrom (t + batchDuration b + 50) bs

/-- State after ingesting a MEDIUM job and then a HIGH job (claim C1's
scenario), with fresh uuid values chosen as plain distinct strings. -/
def stC1 : SysState :=
  runIngest
    (runIngest initState { ids := [1, 2, 3], priority := .MEDIUM } "job-med" ["batch-med"] 0)
    { ids := [4, 5, 6], priority := .HIGH } "job-high" ["batch-high"] 1

/-- State after ingesting two MEDIUM jobs, the first under uuid "job-b" and
the second under uuid "job-a" (uuid4 gives no ordering guarantee, so this
assignment is a possible run). -/
def stC2 : SysState :=
  runIngest
    (runIngest initState { ids := [1], priority := .MEDIUM } "job-b" ["batch-b"] 0)
    { ids := [2], priority := .MEDIUM } "job-a" ["batch-a"] 1

/-- Queue entry of the second-enqueued MEDIUM job of `stC2`. -/
def eAC2 : QueueEntry :=
  { negPriority := -1, ingestionId := "job-a", batchId := "batch-a", ids := [2] }

/-- Queue entry of the first-enqueued MEDIUM job of `stC2`. -/
def eBC2 : QueueEntry :=
  { negPriority := -1, ingestionId := "job-b", batchId := "batch-b", ids := [1] }

/-- Request used by the C7 witness run. -/
def reqC7 : IngestionRequest := { ids := [1, 2, 3], priority := .MEDIUM }

/-- State after one ingest, used by the C7 witness run. -/
def s1c7 : SysState := runIngest initState reqC7 "job-0" ["batch-0"] 0

/-- The single queue entry of `s1c7`. -/
def e1c7 : QueueEntry :=
  { negPriority := -1, ingestionId := "job-0", batchId := "batch-0", ids := [1, 2, 3] }

/-- State after the worker starts processing the only batch of `s1c7`. -/
def s2c7 : SysState :=
  { ingestionJobs := setBatchStatus s1c7.ingestionJobs "job-0" "batch-0" .TRIGGERED,
    taskQueue := [], inFlight := some ("job-0", "batch-0") }

/-- Store with a single one-batch job, used by the C6 witness. -/
def stC6 : SysState :=
  runIngest initState { ids := [7], priority := .LOW } "job-x" ["batch-x"] 3

/-- The job stored in `stC6`. -/
def jobC6 : Job :=
  { status := .YET_TO_START,
    batches := [("batch-x", { ids := [7], status := .YET_TO_START })],
    createdTime := 3, priority := .LOW }

/-- State of the C4 witness run: ingest of five ids. -/
def stC4 : SysState :=
  runIngest initState { ids := [1, 2, 3, 4, 5], priority := .MEDIUM } "job-c4"
    ["batch-c4a", "batch-c4b"] 0

/-- A job with an empty batches dict, for the C10 witness. -/
def jobC10 : Job := { status := .TRIGGERED, batches := [], createdTime := 0, priority := .LOW }

theorem lexListLt_irrefl {α : Type} [LinearOrder α] : ∀ l : List α, lexListLt l l = false
  | [] => rfl
  | a :: as => by simp [lexListLt, lexListLt_irrefl as]

theorem lexListLt_ff_eq {α : Type} [LinearOrder α] :
    ∀ a b : List α, lexListLt a b = false → lexListLt b a = false → a = b
  | [], [], _, _ => rfl
  | [], _ :: _, h1, _ => by simp [lexListLt] at h1
  | _ :: _, [], _, h2 => by simp [lexListLt] at h2
  | a :: as, b :: bs, h1, h2 => by
    simp only [lexListLt] at h1 h2
    by_cases hab : a < b
    · simp [hab] at h1
    · by_cases hba : b < a
      · simp [hab, hba] at h2
      · have hcc : a = b := le_antisymm (not_lt.mp hba) (not_lt.mp hab)
        have := lexListLt_ff_eq as bs (by simpa [hab, hba] using h1) (by simpa [hab, hba] using h2)
        rw [hcc, this]

theorem lexListLt_trans {α : Type} [LinearOrder α] :
    ∀ a b c : List α, lexListLt a b = true → lexListLt b c = true → lexListLt a c = true
  | _, [], _, h1, _ => by simp [lexListLt] at h1
  | _, _ :: _, [], _, h2 => by simp [lexListLt] at h2
  | [], b :: bs, c :: cs, _, _ => by simp [lexListLt]
  | a :: as, b :: bs, c :: cs, h1, h2 => by
    simp only [lexListLt] at h1 h2 ⊢
    by_cases hab : a < b <;> by_cases hbc : b < c
    · simp [lt_trans hab hbc]
    · have hcb : ¬ c < b := by
        intro hcb
        simp [hbc, hcb] at h2
      have hbceq : b = c := le_antisymm (not_lt.mp hcb) (not_lt.mp hbc)
      subst hbceq
      simp [hab]
    · have hba : ¬ b < a := by
        intro hba
        simp [hab, hba] at h1
      have habeq : a = b := le_antisymm (not_lt.mp hba) (not_lt.mp hab)
      subst habeq
      simp [hbc]
    · have hba : ¬ b < a := by intro hba; simp [hab, hba] at h1
      have hcb : ¬ c < b := by intro hcb; simp [hbc, hcb] at h2
      have e1 : a = b := le_antisymm (not_lt.mp hba) (not_lt.mp hab)
      have e2 : b = c := le_antisymm (not_lt.mp hcb) (not_lt.mp hbc)
      subst e1; subst e2
      simp only [lt_irrefl, if_neg (lt_irrefl a), if_false] at h1 h2 ⊢
      exact lexListLt_trans as bs cs h1 h2

theorem lexListLt_asymm {α : Type} [LinearOrder α] {a b : List α}
    (h : lexListLt a b = true) : lexListLt b a = false := by
  by_contra hba
  have hba2 : lexListLt b a = true := by
    cases hh : lexListLt b a
    · exact absurd hh hba
    · rfl
  have := lexListLt_trans a b a h hba2
  rw [lexListLt_irrefl a] at this
  exact Bool.false_ne_true this

theorem strLt_irrefl (a : String) : strLt a a = false := lexListLt_irrefl a.data

theorem strLt_ff_eq {a b : String} (h1 : strLt a b = false) (h2 : strLt b a = false) : a = b := by
  cases a with
  | mk da =>
    cases b with
    | mk db =>
      have : da = db := lexListLt_ff_eq da db h1 h2
      rw [this]

theorem strLt_trans {a b c : String} (h1 : strLt a b = true) (h2 : strLt b c = true) :
    strLt a c = true := lexListLt_trans a.data b.data c.data h1 h2

theorem strLt_asymm {a b : String} (h : strLt a b = true) : strLt b a = false :=
  lexListLt_asymm h

theorem intLtb_irrefl (a : Int) : intLtb a a = false := by simp [intLtb]

theorem intLtb_ff_eq {a b : Int} (h1 : intLtb a b = false) (h2 : intLtb b a = false) : a = b := by
  simp [intLtb] at h1 h2
  omega

theorem intLtb_trans {a b c : Int} (h1 : intLtb a b = true) (h2 : intLtb b c = true) :
    intLtb a c = true := by
  simp [intLtb] at h1 h2 ⊢
  omega

theorem intLtb_asymm {a b : Int} (h : intLtb a b = true) : intLtb b a = false := by
  simp [intLtb] at h ⊢
  omega

theorem cmpOfLt_self {α : Type} {ltb : α → α → Bool} (hirr : ∀ x, ltb x x = false) (a : α) :
    cmpOfLt ltb a a = .eq := by simp [cmpOfLt, hirr]

theorem cmpOfLt_eq_of {α : Type} {ltb : α → α → Bool}
    (hff : ∀ x y, ltb x y = false → ltb y x = false → x = y)
    {a b : α} (h : cmpOfLt ltb a b = .eq) : a = b := by
  unfold cmpOfLt at h
  cases h1 : ltb a b <;> cases h2 : ltb b a <;> simp [h1, h2] at h
  exact hff a b h1 h2

theorem cmpOfLt_lt_iff {α : Type} {ltb : α → α → Bool} {a b : α} :
    cmpOfLt ltb a b = .lt ↔ ltb a b = true := by
  unfold cmpOfLt
  cases h1 : ltb a b <;> cases h2 : ltb b a <;> simp [h1, h2]

theorem cmpOfLt_gt_iff {α : Type} {ltb : α → α → Bool}
    (hasymm : ∀ x y, ltb x y = true → ltb y x = false)
    {a b : α} : cmpOfLt ltb a b = .gt ↔ cmpOfLt ltb b a = .lt := by
  unfold cmpOfLt
  cases h1 : ltb a b <;> cases h2 : ltb b a <;> simp [h1, h2]
  exact absurd (hasymm a b h1) (by simp [h2])

theorem cmpOfLt_eq_symm {α : Type} {ltb : α → α → Bool} {a b : α}
    (h : cmpOfLt ltb a b = .eq) : cmpOfLt ltb b a = .eq := by
  unfold cmpOfLt at h ⊢
  cases h1 : ltb a b <;> cases h2 : ltb b a <;> simp [h1, h2] at h ⊢

theorem then_eq_lt {o1 o2 : Ordering} : o1.then o2 = .lt ↔ o1 = .lt ∨ (o1 = .eq ∧ o2 = .lt) := by
  cases o1 <;> simp [Ordering.then]

theorem then_eq_eq {o1 o2 : Ordering} : o1.then o2 = .eq ↔ o1 = .eq ∧ o2 = .eq := by
  cases o1 <;> simp [Ordering.then]

theorem then_eq_gt {o1 o2 : Ordering} : o1.then o2 = .gt ↔ o1 = .gt ∨ (o1 = .eq ∧ o2 = .gt) := by
  cases o1 <;> simp [Ordering.then]

theorem entryCmp_self (a : QueueEntry) : entryCmp a a = .eq := by
  simp [entryCmp, then_eq_eq, cmpOfLt_self intLtb_irrefl, cmpOfLt_self strLt_irrefl,
    cmpOfLt_self (fun l : List Int => lexListLt_irrefl l)]

theorem entryCmp_eq_of {a b : QueueEntry} (h : entryCmp a b = .eq) : a = b := by
  rw [entryCmp, then_eq_eq, then_eq_eq, then_eq_eq] at h
  obtain ⟨h1, ⟨h2, ⟨h3, h4⟩⟩⟩ := h
  have e1 := cmpOfLt_eq_of (fun x y => intLtb_ff_eq) h1
  have e2 := cmpOfLt_eq_of (fun x y => strLt_ff_eq) h2
  have e3 := cmpOfLt_eq_of (fun x y => strLt_ff_eq) h3
  have e4 := cmpOfLt_eq_of (fun x y => lexListLt_ff_eq x y) h4
  cases a; cases b
  simp_all

theorem entryCmp_gt_to_lt {a b : QueueEntry} (h : entryCmp a b = .gt) : entryCmp b a = .lt := by
  rw [entryCmp, then_eq_gt, then_eq_gt, then_eq_gt] at h
  rw [entryCmp, then_eq_lt, then_eq_lt, then_eq_lt]
  have gInt := @cmpOfLt_gt_iff Int intLtb (fun x y => intLtb_asymm)
    a.negPriority b.negPriority
  have gStr1 := @cmpOfLt_gt_iff String strLt (fun x y => strLt_asymm)
    a.ingestionId b.ingestionId
  have gStr2 := @cmpOfLt_gt_iff String strLt (fun x y => strLt_asymm)
    a.batchId b.batchId
  have gIds := @cmpOfLt_gt_iff (List Int) lexListLt (fun x y => lexListLt_asymm)
    a.ids b.ids
  rcases h with h1 | ⟨e1, h2 | ⟨e2, h3 | ⟨e3, h4⟩⟩⟩
  · exact Or.inl (gInt.mp h1)
  · exact Or.inr ⟨cmpOfLt_eq_symm e1, Or.inl (gStr1.mp h2)⟩
  · exact Or.inr ⟨cmpOfLt_eq_symm e1, Or.inr ⟨cmpOfLt_eq_symm e2, Or.inl (gStr2.mp h3)⟩⟩
  · exact Or.inr ⟨cmpOfLt_eq_symm e1,
      Or.inr ⟨cmpOfLt_eq_symm e2, Or.inr ⟨cmpOfLt_eq_symm e3, gIds.mp h4⟩⟩⟩

theorem entryLt_iff {a b : QueueEntry} : entryLt a b = true ↔ entryCmp a b = Ordering.lt := by
  rw [entryLt]
  cases h : entryCmp a b <;> decide

theorem entryLt_false_iff {a b : QueueEntry} : entryLt a b = false ↔ entryCmp a b ≠ Ordering.lt := by
  rw [entryLt]
  cases h : entryCmp a b <;> decide

theorem entryLt_irrefl (a : QueueEntry) : entryLt a a = false := by
  rw [entryLt_false_iff, entryCmp_self]
  decide

theorem entryLt_ff_eq {a b : QueueEntry} (h1 : entryLt a b = false) (h2 : entryLt b a = false) :
    a = b := by
  rw [entryLt_false_iff] at h1 h2
  cases h : entryCmp a b with
  | lt => exact absurd h h1
  | eq => exact entryCmp_eq_of h
  | gt => exact absurd (entryCmp_gt_to_lt h) h2

theorem entryLt_trans {a b c : QueueEntry} (h1 : entryLt a b = true) (h2 : entryLt b c = true) :
    entryLt a c = true := by
  rw [entryLt_iff] at h1 h2 ⊢
  rw [entryCmp, then_eq_lt, then_eq_lt, then_eq_lt] at h1 h2 ⊢
  have eInt : ∀ {x y : Int}, cmpOfLt intLtb x y = .eq → x = y :=
    fun h => cmpOfLt_eq_of (fun x y => intLtb_ff_eq) h
  have eStr : ∀ {x y : String}, cmpOfLt strLt x y = .eq → x = y :=
    fun h => cmpOfLt_eq_of (fun x y => strLt_ff_eq) h
  have tInt : ∀ {x y z : Int}, cmpOfLt intLtb x y = .lt → cmpOfLt intLtb y z = .lt →
      cmpOfLt intLtb x z = .lt := fun hx hy =>
    cmpOfLt_lt_iff.mpr (intLtb_trans (cmpOfLt_lt_iff.mp hx) (cmpOfLt_lt_iff.mp hy))
  have tStr : ∀ {x y z : String}, cmpOfLt strLt x y = .lt → cmpOfLt strLt y z = .lt →
      cmpOfLt strLt x z = .lt := fun hx hy =>
    cmpOfLt_lt_iff.mpr (strLt_trans (cmpOfLt_lt_iff.mp hx) (cmpOfLt_lt_iff.mp hy))
  have tIds : ∀ {x y z : List Int}, cmpOfLt lexListLt x y = .lt → cmpOfLt lexListLt y z = .lt →
      cmpOfLt lexListLt x z = .lt := fun hx hy =>
    cmpOfLt_lt_iff.mpr (lexListLt_trans _ _ _ (cmpOfLt_lt_iff.mp hx) (cmpOfLt_lt_iff.mp hy))
  rcases h1 with p1 | ⟨q1, p2 | ⟨q2, p3 | ⟨q3, p4⟩⟩⟩ <;>
    rcases h2 with r1 | ⟨s1, r2 | ⟨s2, r3 | ⟨s3, r4⟩⟩⟩
  · exact Or.inl (tInt p1 r1)
  · exact Or.inl (by rw [← eInt s1]; exact p1)
  · exact Or.inl (by rw [← eInt s1]; exact p1)
  · exact Or.inl (by rw [← eInt s1]; exact p1)
  · exact Or.inl (by rw [eInt q1]; exact r1)
  · exact Or.inr ⟨by rw [eInt q1]; exact s1, Or.inl (tStr p2 r2)⟩
  · exact Or.inr ⟨by rw [eInt q1]; exact s1, Or.inl (by rw [← eStr s2]; exact p2)⟩
  · exact Or.inr ⟨by rw [eInt q1]; exact s1, Or.inl (by rw [← eStr s2]; exact p2)⟩
  · exact Or.inl (by rw [eInt q1]; exact r1)
  · exact Or.inr ⟨by rw [eInt q1]; exact s1, Or.inl (by rw [eStr q2]; exact r2)⟩
  · exact Or.inr ⟨by rw [eInt q1]; exact s1,
      Or.inr ⟨by rw [eStr q2]; exact s2, Or.inl (tStr p3 r3)⟩⟩
  · exact Or.inr ⟨by rw [eInt q1]; exact s1,
      Or.inr ⟨by rw [eStr q2]; exact s2, Or.inl (by rw [← eStr s3]; exact p3)⟩⟩
  · exact Or.inl (by rw [eInt q1]; exact r1)
  · exact Or.inr ⟨by rw [eInt q1]; exact s1, Or.inl (by rw [eStr q2]; exact r2)⟩
  · exact Or.inr ⟨by rw [eInt q1]; exact s1,
      Or.inr ⟨by rw [eStr q2]; exact s2, Or.inl (by rw [eStr q3]; exact r3)⟩⟩
  · exact Or.inr ⟨by rw [eInt q1]; exact s1,
      Or.inr ⟨by rw [eStr q2]; exact s2, Or.inr ⟨by rw [eStr q3]; exact s3, tIds p4 r4⟩⟩⟩

theorem entryLt_total_of_ff {a b : QueueEntry} (h : entryLt a b = false) :
    entryLt b a = true ∨ a = b := by
  cases hba : entryLt b a
  · exact Or.inr (entryLt_ff_eq h hba)
  · exact Or.inl rfl

theorem minEntry_mem (x : QueueEntry) : ∀ ys : List QueueEntry, minEntry x ys ∈ x :: ys := by
  intro ys
  induction ys generalizing x with
  | nil => simp [minEntry]
  | cons y ys ih =>
    rw [minEntry]
    by_cases h : entryLt y x = true
    · simp only [h, if_true]
      rcases List.mem_cons.mp (ih y) with h1 | h1
      · simp [h1]
      · simp [List.mem_cons, h1]
    · simp only [Bool.not_eq_true] at h
      simp only [h, Bool.false_eq_true, if_false]
      rcases List.mem_cons.mp (ih x) with h1 | h1
      · simp [h1]
      · simp [List.mem_cons, h1]

theorem entryLt_minEntry_false (x : QueueEntry) :
    ∀ ys : List QueueEntry, ∀ z ∈ x :: ys, entryLt z (minEntry x ys) = false := by
  intro ys
  induction ys generalizing x with
  | nil =>
    intro z hz
    simp at hz
    subst hz
    simp [minEntry, entryLt_irrefl]
  | cons y ys ih =>
    intro z hz
    simp only [List.mem_cons] at hz
    rw [minEntry]
    by_cases h : entryLt y x = true
    · simp only [h, if_true]
      rcases hz with hz | hz | hz
      · -- z = x : y is strictly below x, so x is above the minimum of y :: ys
        subst hz
        cases hzx : entryLt z (minEntry y ys)
        · rfl
        · have hmin := ih y y (by simp)
          have htr := entryLt_trans h hzx
          rw [hmin] at htr
          exact absurd htr (by simp)
      · subst hz
        exact ih z z (by simp)
      · exact ih y z (by simp [hz])
    · simp only [Bool.not_eq_true] at h
      simp only [h, Bool.false_eq_true, if_false]
      rcases hz with hz | hz | hz
      · subst hz
        exact ih z z (by simp)
      · -- z = y with y not strictly below x: y cannot be below the minimum of x :: ys
        subst hz
        cases hzm : entryLt z (minEntry x ys)
        · rfl
        · rcases entryLt_total_of_ff h with hxz | hxz
          · have hmx := ih x x (by simp)
            have htr := entryLt_trans hxz hzm
            rw [hmx] at htr
            exact absurd htr (by simp)
          · have hmx := ih x x (by simp)
            rw [hxz] at hzm
            rw [hmx] at hzm
            exact absurd hzm (by simp)
      · exact ih x z (by simp [hz])

theorem heapPop_eq_some {q : List QueueEntry} {e : QueueEntry} {rest : List QueueEntry}
    (h : heapPop q = some (e, rest)) : e ∈ q ∧ rest = q.erase e := by
  cases q with
  | nil => simp [heapPop] at h
  | cons x xs =>
    rw [heapPop, Option.some_inj] at h
    obtain ⟨he, hrest⟩ := Prod.mk.injEq .. ▸ h
    constructor
    · rw [← he]
      exact minEntry_mem x xs
    · rw [← hrest, ← he]

theorem heapPop_min {q : List QueueEntry} {e : QueueEntry} {rest : List QueueEntry}
    (h : heapPop q = some (e, rest)) : ∀ y ∈ q, entryLt y e = false := by
  cases q with
  | nil => simp [heapPop] at h
  | cons x xs =>
    rw [heapPop, Option.some_inj] at h
    obtain ⟨he, _⟩ := Prod.mk.injEq .. ▸ h
    rw [← he]
    exact entryLt_minEntry_false x xs

theorem heapPop_perm {q : List QueueEntry} {e : QueueEntry} {rest : List QueueEntry}
    (h : heapPop q = some (e, rest)) : q.Perm (e :: rest) := by
  obtain ⟨he, hrest⟩ := heapPop_eq_some h
  rw [hrest]
  exact List.perm_cons_erase he

theorem dictFind_cons {β : Type} (x : String × β) (xs : List (String × β)) (k : String) :
    dictFind (x :: xs) k = if x.1 = k then some x.2 else dictFind xs k := by
  by_cases h : x.1 = k
  · rw [if_pos h]
    unfold dictFind
    rw [List.find?_cons_of_pos _ (by simpa using h)]
    rfl
  · rw [if_neg h]
    unfold dictFind
    rw [List.find?_cons_of_neg _ (by simpa using h)]

theorem dictFind_mapAt {β : Type} (l : List (String × β)) (k : String) (f : β → β)
    (k2 : String) :
    dictFind (dictMapAt l k f) k2 =
      if k2 = k then (dictFind l k2).map f else dictFind l k2 := by
  induction l with
  | nil => by_cases h : k2 = k <;> simp [dictFind, dictMapAt, h]
  | cons x xs ih =>
    have hcons : dictMapAt (x :: xs) k f =
        (if x.1 = k then (x.1, f x.2) else x) :: dictMapAt xs k f := rfl
    rw [hcons]
    by_cases hpk : x.1 = k
    · rw [if_pos hpk, dictFind_cons, dictFind_cons]
      by_cases hpk2 : x.1 = k2
      · have hk2k : k2 = k := hpk2.symm.trans hpk
        rw [if_pos (show ((x.1, f x.2).1 = k2) from hpk2), if_pos hpk2, if_pos hk2k]
        simp
      · rw [if_neg (show ¬ ((x.1, f x.2).1 = k2) from hpk2), if_neg hpk2]
        exact ih
    · rw [if_neg hpk, dictFind_cons, dictFind_cons]
      by_cases hpk2 : x.1 = k2
      · have hk2k : ¬ k2 = k := fun h => hpk (hpk2.trans h)
        rw [if_pos hpk2, if_neg hk2k, if_pos hpk2]
      · rw [if_neg hpk2, if_neg hpk2]
        exact ih

theorem dictFind_append {β : Type} (l1 l2 : List (String × β)) (k : String) :
    dictFind (l1 ++ l2) k = (dictFind l1 k).or (dictFind l2 k) := by
  simp only [dictFind, List.find?_append]
  cases l1.find? fun p => p.1 == k <;> simp

theorem dictFind_singleton {β : Type} (k : String) (v : β) :
    dictFind [(k, v)] k = some v := by
  simp [dictFind, List.find?]

theorem dictFind_mem {β : Type} {l : List (String × β)} {k : String} {v : β}
    (h : dictFind l k = some v) : (k, v) ∈ l := by
  unfold dictFind at h
  cases hf : l.find? fun p => p.1 == k with
  | none => rw [hf] at h; simp at h
  | some p =>
    rw [hf] at h
    have hmem := List.mem_of_find?_eq_some hf
    have hpred := List.find?_some hf
    have hk : p.1 = k := by simpa using hpred
    cases p with
    | mk pk pv =>
      simp at h hk
      rw [← h, ← hk]
      exact hmem

theorem dictFind_isSome_of_mem {β : Type} {l : List (String × β)} {k : String} {v : β}
    (h : (k, v) ∈ l) : (dictFind l k).isSome := by
  unfold dictFind
  cases hf : l.find? fun p => p.1 == k with
  | none =>
    exfalso
    have := List.find?_eq_none.mp hf (k, v) h
    simp at this
  | some p => simp

theorem batchStatusOf_elim {jobs : List (String × Job)} {iid bid : String} {b : BatchStatus}
    (h : batchStatusOf jobs iid bid = some b) :
    ∃ j bt, lookupJob jobs iid = some j ∧ lookupBatch j.batches bid = some bt ∧
      bt.status = b := by
  unfold batchStatusOf at h
  cases hj : lookupJob jobs iid with
  | none => rw [hj] at h; simp at h
  | some j =>
    rw [hj] at h
    simp only [Option.some_bind] at h
    cases hb : lookupBatch j.batches bid with
    | none => rw [hb] at h; simp at h
    | some bt =>
      rw [hb] at h
      simp at h
      exact ⟨j, bt, rfl, hb, h⟩

theorem batchStatusOf_intro {jobs : List (String × Job)} {iid bid : String} {j : Job}
    {bt : Batch} (hj : lookupJob jobs iid = some j) (hb : lookupBatch j.batches bid = some bt) :
    batchStatusOf jobs iid bid = some bt.status := by
  unfold batchStatusOf
  rw [hj]
  simp [hb]

theorem update_ingestion_status_batches (j : Job) :
    (update_ingestion_status j).batches = j.batches := rfl

theorem batchStatusOf_updateJobStatus (jobs : List (String × Job)) (iid : String)
    (iid2 bid2 : String) :
    batchStatusOf (updateJobStatus jobs iid) iid2 bid2 = batchStatusOf jobs iid2 bid2 := by
  unfold batchStatusOf updateJobStatus lookupJob
  rw [dictFind_mapAt]
  by_cases h : iid2 = iid
  · rw [if_pos h]
    cases hj : dictFind jobs iid2 with
    | none => rfl
    | some j => rfl
  · rw [if_neg h]

theorem batchStatusOf_setBatchStatus_same {jobs : List (String × Job)} {iid bid : String}
    {b : BatchStatus} (s : BatchStatus) (h : batchStatusOf jobs iid bid = some b) :
    batchStatusOf (setBatchStatus jobs iid bid s) iid bid = some s := by
  obtain ⟨j, bt, hj, hb, _⟩ := batchStatusOf_elim h
  unfold lookupJob at hj
  unfold batchStatusOf setBatchStatus lookupJob
  rw [dictFind_mapAt, if_pos rfl, hj]
  unfold lookupBatch at hb
  simp only [Option.map_some', Option.some_bind]
  unfold lookupBatch
  rw [dictFind_mapAt, if_pos rfl, hb]
  simp

theorem batchStatusOf_setBatchStatus_ne {jobs : List (String × Job)} {iid bid : String}
    (s : BatchStatus) (iid2 bid2 : String) (hne : (iid2, bid2) ≠ (iid, bid)) :
    batchStatusOf (setBatchStatus jobs iid bid s) iid2 bid2 =
      batchStatusOf jobs iid2 bid2 := by
  unfold batchStatusOf setBatchStatus lookupJob
  rw [dictFind_mapAt]
  by_cases hi : iid2 = iid
  · have hbne : bid2 ≠ bid := by
      intro hb
      exact hne (by rw [hi, hb])
    rw [if_pos hi]
    cases hj : dictFind jobs iid2 with
    | none => rfl
    | some j =>
      simp only [Option.map_some', Option.some_bind]
      unfold lookupBatch
      rw [dictFind_mapAt, if_neg hbne]
  · rw [if_neg hi]

theorem foldl_heapPush (entries : List QueueEntry) :
    ∀ q : List QueueEntry, entries.foldl heapPush q = q ++ entries := by
  induction entries with
  | nil => intro q; simp
  | cons e es ih =>
    intro q
    rw [List.foldl_cons, ih (heapPush q e), heapPush, List.append_assoc]
    rfl

theorem ingest_data_ok_shape {st : SysState} {req : IngestionRequest} {iid : String}
    {bids : List String} {now : Nat} {st2 : SysState} {rid : String}
    (hok : ingest_data st req iid bids now = .ok (st2, rid)) :
    rid = iid ∧
    st2.ingestionJobs = st.ingestionJobs ++
      [(iid, { status := .YET_TO_START, batches := mkBatches bids (makeBatchLists req.ids),
               createdTime := now, priority := req.priority })] ∧
    st2.taskQueue = st.taskQueue ++
      (mkBatches bids (makeBatchLists req.ids)).map (fun p =>
        { negPriority := -(priorityValue req.priority), ingestionId := iid,
          batchId := p.1, ids := p.2.ids }) ∧
    st2.inFlight = st.inFlight ∧
    findInvalidId req.ids = none := by
  unfold ingest_data at hok
  cases hv : findInvalidId req.ids with
  | some badId => rw [hv] at hok; simp at hok
  | none =>
    rw [hv] at hok
    simp only [Except.ok.injEq, Prod.mk.injEq] at hok
    obtain ⟨hst, hr⟩ := hok
    refine ⟨hr.symm, ?_, ?_, ?_, rfl⟩
    · rw [← hst]
    · rw [← hst]
      simp only []
      rw [foldl_heapPush]
    · rw [← hst]

theorem mkBatches_status {bids : List String} {groups : List (List Int)} :
    ∀ p ∈ mkBatches bids groups, p.2.status = BatchStatus.YET_TO_START := by
  intro p hp
  unfold mkBatches at hp
  obtain ⟨q, _, hq⟩ := List.mem_map.mp hp
  rw [← hq]

theorem mkBatches_keys {bids : List String} {groups : List (List Int)}
    (hlen : bids.length = groups.length) :
    (mkBatches bids groups).map (fun p => p.1) = bids := by
  unfold mkBatches
  rw [List.map_map]
  exact List.map_fst_zip bids groups (le_of_eq hlen)

theorem lookupJob_append_left {jobs : List (String × Job)} {k : String} {j : Job}
    (h : lookupJob jobs k = some j) (l2 : List (String × Job)) :
    lookupJob (jobs ++ l2) k = some j := by
  unfold lookupJob at h ⊢
  rw [dictFind_append, h]
  rfl

theorem batchStatusOf_append_left {jobs : List (String × Job)} {iid2 bid2 : String}
    {b : BatchStatus} (h : batchStatusOf jobs iid2 bid2 = some b)
    (l2 : List (String × Job)) : batchStatusOf (jobs ++ l2) iid2 bid2 = some b := by
  obtain ⟨j, bt, hj, hb, hs⟩ := batchStatusOf_elim h
  rw [← hs]
  exact batchStatusOf_intro (lookupJob_append_left hj l2) hb

theorem lookupJob_append_fresh {jobs : List (String × Job)} {k : String}
    (h : lookupJob jobs k = none) (j : Job) :
    lookupJob (jobs ++ [(k, j)]) k = some j := by
  unfold lookupJob at h ⊢
  rw [dictFind_append, h, dictFind_singleton]
  rfl

theorem eq_of_keys_nodup {l : List QueueEntry} (h : (l.map entryKey).Nodup)
    {a b : QueueEntry} (ha : a ∈ l) (hb : b ∈ l) (hk : entryKey a = entryKey b) : a = b :=
  List.inj_on_of_nodup_map h ha hb hk

theorem heapPop_rest_mem {q : List QueueEntry} {e : QueueEntry} {rest : List QueueEntry}
    (hpop : heapPop q = some (e, rest)) (hkeys : (q.map entryKey).Nodup) :
    ∀ x ∈ rest, x ∈ q ∧ entryKey x ≠ entryKey e := by
  obtain ⟨hmem, hrest⟩ := heapPop_eq_some hpop
  intro x hx
  rw [hrest] at hx
  have hxq : x ∈ q := List.mem_of_mem_erase hx
  refine ⟨hxq, fun hkx => ?_⟩
  have hnodup : q.Nodup := List.Nodup.of_map entryKey hkeys
  have hxe : x = e := eq_of_keys_nodup hkeys hxq hmem hkx
  rw [hxe] at hx
  rw [(List.Nodup.mem_erase_iff hnodup)] at hx
  exact hx.1 rfl

theorem heapPop_rest_keys {q : List QueueEntry} {e : QueueEntry} {rest : List QueueEntry}
    (hpop : heapPop q = some (e, rest)) :
    List.Sublist (rest.map entryKey) (q.map entryKey) := by
  obtain ⟨_, hrest⟩ := heapPop_eq_some hpop
  rw [hrest]
  exact List.Sublist.map entryKey (List.erase_sublist e q)

theorem inv_init : Inv initState := by
  constructor
  · intro e he
    simp [initState] at he
  · intro iid bid h
    simp [initState] at h
  · simp [initState]
  · intro iid bid h
    simp [initState] at h

theorem inv_preserved {s s2 : SysState} (hstep : Step s s2) (hinv : Inv s) : Inv s2 := by
  cases hstep with
  | ingest req ingestionId batchIds now st2 rid hfresh hnodup hlen hok =>
    obtain ⟨hrid, hjobs, hqueue, hflight, hval⟩ := ingest_data_ok_shape hok
    set newJob : Job :=
      { status := .YET_TO_START, batches := mkBatches batchIds (makeBatchLists req.ids),
        createdTime := now, priority := req.priority } with hnewJob
    set newEntries : List QueueEntry :=
      (mkBatches batchIds (makeBatchLists req.ids)).map (fun p =>
        { negPriority := -(priorityValue req.priority), ingestionId := ingestionId,
          batchId := p.1, ids := p.2.ids }) with hnewEntries
    have hold_ne : ∀ e ∈ s.taskQueue, e.ingestionId ≠ ingestionId := by
      intro e he heq
      obtain ⟨j, bt, hj, _, _⟩ := batchStatusOf_elim (hinv.queued_yts e he)
      rw [heq, hfresh] at hj
      exact Option.noConfusion hj
    have hnew_status : ∀ e ∈ newEntries,
        batchStatusOf s2.ingestionJobs e.ingestionId e.batchId = some .YET_TO_START := by
      intro e he
      rw [hnewEntries] at he
      obtain ⟨p, hp, hpe⟩ := List.mem_map.mp he
      have hjlook : lookupJob s2.ingestionJobs ingestionId = some newJob := by
        rw [hjobs]
        exact lookupJob_append_fresh hfresh newJob
      have hpmem : (p.1, p.2) ∈ newJob.batches := by
        rw [hnewJob]
        exact hp
      have hbsome := dictFind_isSome_of_mem hpmem
      obtain ⟨bt, hbt⟩ := Option.isSome_iff_exists.mp hbsome
      have hbtmem := dictFind_mem hbt
      have hbty : bt.status = .YET_TO_START := mkBatches_status (p.1, bt) hbtmem
      rw [← hpe]
      have := @batchStatusOf_intro s2.ingestionJobs ingestionId p.1 newJob bt hjlook hbt
      rw [hbty] at this
      exact this
    have hold_status : ∀ e ∈ s.taskQueue,
        batchStatusOf s2.ingestionJobs e.ingestionId e.batchId = some .YET_TO_START := by
      intro e he
      rw [hjobs]
      exact batchStatusOf_append_left (hinv.queued_yts e he) _
    have hnewKeys : newEntries.map entryKey =
        (mkBatches batchIds (makeBatchLists req.ids)).map (fun p => (ingestionId, p.1)) := by
      rw [hnewEntries, List.map_map]
      rfl
    constructor
    · intro e he
      rw [hqueue] at he
      rcases List.mem_append.mp he with h1 | h1
      · exact hold_status e h1
      · exact hnew_status e h1
    · intro iid bid hfl
      rw [hflight] at hfl
      have hold := hinv.inflight_trig iid bid hfl
      obtain ⟨j, bt, hj, _, _⟩ := batchStatusOf_elim hold
      rw [hjobs]
      exact batchStatusOf_append_left hold _
    · rw [hqueue, List.map_append]
      refine List.Nodup.append hinv.keys_nodup ?_ ?_
      · rw [hnewKeys]
        have hcomp : (mkBatches batchIds (makeBatchLists req.ids)).map
            (fun p => (ingestionId, p.1)) =
            ((mkBatches batchIds (makeBatchLists req.ids)).map (fun p => p.1)).map
              (fun k => (ingestionId, k)) := by
          rw [List.map_map]
          rfl
        rw [hcomp, mkBatches_keys hlen]
        exact List.Nodup.map (fun a b hab => by simpa using congrArg Prod.snd hab) hnodup
      · intro x hx hx2
        obtain ⟨e, he, hke⟩ := List.mem_map.mp hx
        rw [hnewKeys] at hx2
        obtain ⟨p, _, hkp⟩ := List.mem_map.mp hx2
        have : x.1 = ingestionId := by rw [← hkp]
        have hxe : x.1 = e.ingestionId := by rw [← hke]; rfl
        exact hold_ne e he (by rw [← hxe, this])
    · intro iid bid hfl
      rw [hflight] at hfl
      have hold := hinv.inflight_trig iid bid hfl
      obtain ⟨j, bt, hj, _, _⟩ := batchStatusOf_elim hold
      have hne : iid ≠ ingestionId := by
        intro heq
        rw [heq, hfresh] at hj
        exact Option.noConfusion hj
      rw [hqueue, List.map_append]
      intro hmem
      rcases List.mem_append.mp hmem with h1 | h1
      · exact hinv.inflight_not_queued iid bid hfl h1
      · rw [hnewKeys] at h1
        obtain ⟨p, _, hkp⟩ := List.mem_map.mp h1
        exact hne (by simpa using congrArg Prod.fst hkp.symm)
  | startBatch e rest hidle hpop =>
    have hmem := (heapPop_eq_some hpop).1
    have hY := hinv.queued_yts e hmem
    constructor
    · intro x hx
      obtain ⟨hxq, hkne⟩ := heapPop_rest_mem hpop hinv.keys_nodup x hx
      have hne : (x.ingestionId, x.batchId) ≠ (e.ingestionId, e.batchId) := hkne
      simp only []
      rw [batchStatusOf_setBatchStatus_ne _ _ _ hne]
      exact hinv.queued_yts x hxq
    · intro iid bid hfl
      simp only [Option.some_inj] at hfl
      have h1 : e.ingestionId = iid := congrArg Prod.fst hfl
      have h2 : e.batchId = bid := congrArg Prod.snd hfl
      simp only []
      rw [h1, h2] at hY ⊢
      exact batchStatusOf_setBatchStatus_same _ hY
    · exact List.Sublist.nodup (heapPop_rest_keys hpop) hinv.keys_nodup
    · intro iid bid hfl hmem2
      simp only [Option.some_inj] at hfl
      have h1 : e.ingestionId = iid := congrArg Prod.fst hfl
      have h2 : e.batchId = bid := congrArg Prod.snd hfl
      obtain ⟨x, hx, hkx⟩ := List.mem_map.mp hmem2
      obtain ⟨_, hkne⟩ := heapPop_rest_mem hpop hinv.keys_nodup x hx
      apply hkne
      rw [hkx]
      unfold entryKey
      rw [h1, h2]
  | finishBatch ingestionId batchId hbusy =>
    have hT := hinv.inflight_trig ingestionId batchId hbusy
    have hnotq := hinv.inflight_not_queued ingestionId batchId hbusy
    constructor
    · intro x hx
      simp only []
      rw [batchStatusOf_updateJobStatus]
      have hne : (x.ingestionId, x.batchId) ≠ (ingestionId, batchId) := by
        intro heq
        apply hnotq
        rw [← heq]
        exact List.mem_map.mpr ⟨x, hx, rfl⟩
      rw [batchStatusOf_setBatchStatus_ne _ _ _ hne]
      exact hinv.queued_yts x hx
    · intro iid bid hfl
      simp at hfl
    · exact hinv.keys_nodup
    · intro iid bid hfl
      simp at hfl

theorem inv_of_reachable {s : SysState} (h : Reachable s) : Inv s := by
  unfold Reachable at h
  induction h with
  | refl => exact inv_init
  | tail _ hstep ih => exact inv_preserved hstep ih

theorem step_batch_monotone {s s2 : SysState} (hinv : Inv s) (hstep : Step s s2)
    {iid bid : String} {b : BatchStatus} (hb : batchStatusOf s.ingestionJobs iid bid = some b) :
    ∃ b2, batchStatusOf s2.ingestionJobs iid bid = some b2 ∧
      statusRank b ≤ statusRank b2 ∧ (b = .COMPLETED → b2 = .COMPLETED) := by
  cases hstep with
  | ingest req ingestionId batchIds now st2 rid hfresh hnodup hlen hok =>
    obtain ⟨_, hjobs, _, _, _⟩ := ingest_data_ok_shape hok
    refine ⟨b, ?_, le_refl _, fun h => h⟩
    rw [hjobs]
    exact batchStatusOf_append_left hb _
  | startBatch e rest hidle hpop =>
    by_cases hk : (iid, bid) = (e.ingestionId, e.batchId)
    · have h1 : iid = e.ingestionId := congrArg Prod.fst hk
      have h2 : bid = e.batchId := congrArg Prod.snd hk
      have hY := hinv.queued_yts e ((heapPop_eq_some hpop).1)
      have hby : b = .YET_TO_START := by
        rw [h1, h2] at hb
        rw [hb] at hY
        exact Option.some_inj.mp hY
      refine ⟨.TRIGGERED, ?_, ?_, ?_⟩
      · simp only []
        rw [h1, h2]
        exact batchStatusOf_setBatchStatus_same _ hY
      · rw [hby]
        decide
      · intro hc
        rw [hby] at hc
        exact absurd hc (by decide)
    · refine ⟨b, ?_, le_refl _, fun h => h⟩
      simp only []
      rw [batchStatusOf_setBatchStatus_ne _ _ _ hk]
      exact hb
  | finishBatch ingestionId batchId hbusy =>
    by_cases hk : (iid, bid) = (ingestionId, batchId)
    · have h1 : iid = ingestionId := congrArg Prod.fst hk
      have h2 : bid = batchId := congrArg Prod.snd hk
      have hT := hinv.inflight_trig ingestionId batchId hbusy
      have hbt : b = .TRIGGERED := by
        rw [h1, h2] at hb
        rw [hb] at hT
        exact Option.some_inj.mp hT
      refine ⟨.COMPLETED, ?_, ?_, fun _ => rfl⟩
      · simp only []
        rw [batchStatusOf_updateJobStatus, h1, h2]
        exact batchStatusOf_setBatchStatus_same _ hT
      · rw [hbt]
        decide
    · refine ⟨b, ?_, le_refl _, fun h => h⟩
      simp only []
      rw [batchStatusOf_updateJobStatus, batchStatusOf_setBatchStatus_ne _ _ _ hk]
      exact hb

theorem makeBatchLists_flatten (l : List Int) : (makeBatchLists l).flatten = l := by
  induction l using makeBatchLists.induct with
  | case1 => rfl
  | case2 a => rfl
  | case3 a b => rfl
  | case4 a b c rest ih => simp [makeBatchLists, ih]

theorem makeBatchLists_length (l : List Int) :
    (makeBatchLists l).length = (l.length + 2) / 3 := by
  induction l using makeBatchLists.induct with
  | case1 => rfl
  | case2 a => simp [makeBatchLists]
  | case3 a b => simp [makeBatchLists]
  | case4 a b c rest ih =>
    simp [makeBatchLists, ih]
    omega

theorem makeBatchLists_sizes (l : List Int) :
    ∀ g ∈ makeBatchLists l, 1 ≤ g.length ∧ g.length ≤ 3 := by
  induction l using makeBatchLists.induct with
  | case1 =>
    intro g hg
    simp [makeBatchLists] at hg
  | case2 a =>
    intro g hg
    simp [makeBatchLists] at hg
    subst hg
    simp
  | case3 a b =>
    intro g hg
    simp [makeBatchLists] at hg
    subst hg
    simp
  | case4 a b c rest ih =>
    intro g hg
    simp only [makeBatchLists, List.mem_cons] at hg
    rcases hg with hg | hg
    · subst hg
      simp
    · exact ih g hg

theorem makeBatchLists_ne_nil {l : List Int} (h : l ≠ []) : makeBatchLists l ≠ [] := by
  cases l with
  | nil => exact absurd rfl h
  | cons a rest =>
    cases rest with
    | nil => simp [makeBatchLists]
    | cons b rest2 =>
      cases rest2 with
      | nil => simp [makeBatchLists]
      | cons c rest3 => simp [makeBatchLists]

theorem mkBatches_ids {bids : List String} {groups : List (List Int)}
    (hlen : bids.length = groups.length) :
    (mkBatches bids groups).map (fun p => p.2.ids) = groups := by
  unfold mkBatches
  rw [List.map_map]
  exact List.map_snd_zip bids groups (le_of_eq hlen.symm)

theorem mkBatches_length {bids : List String} {groups : List (List Int)}
    (hlen : bids.length = groups.length) :
    (mkBatches bids groups).length = groups.length := by
  unfold mkBatches
  rw [List.length_map, List.length_zip]
  omega

theorem validId_false_iff (id : Int) :
    validId id = false ↔ ¬ (1 ≤ id ∧ id ≤ 10 ^ 9 + 7) := by
  simp [validId]

theorem findInvalidId_of_bad :
    ∀ ids : List Int, (∃ id ∈ ids, ¬ (1 ≤ id ∧ id ≤ 10 ^ 9 + 7)) →
      ∃ badId, findInvalidId ids = some badId ∧ badId ∈ ids ∧
        ¬ (1 ≤ badId ∧ badId ≤ 10 ^ 9 + 7) := by
  intro ids
  induction ids with
  | nil =>
    intro h
    simp at h
  | cons id rest ih =>
    intro h
    cases hv : validId id with
    | false =>
      exact ⟨id, by simp [findInvalidId, hv], List.mem_cons_self id rest,
        (validId_false_iff id).mp hv⟩
    | true =>
      have hidok : 1 ≤ id ∧ id ≤ 10 ^ 9 + 7 := by
        by_contra hc
        rw [(validId_false_iff id).mpr hc] at hv
        exact Bool.noConfusion hv
      obtain ⟨x, hx, hxbad⟩ := h
      rcases List.mem_cons.mp hx with hhead | htail
      · exact absurd (hhead ▸ hidok) hxbad
      · obtain ⟨badId, hfind, hmem, hbad⟩ := ih ⟨x, htail, hxbad⟩
        exact ⟨badId, by simpa [findInvalidId, hv] using hfind,
          List.mem_cons_of_mem id hmem, hbad⟩

theorem all_completed_iff (l : List BatchStatus) :
    (l.all fun s => s == BatchStatus.COMPLETED) = true ↔ ∀ s ∈ l, s = .COMPLETED := by
  rw [List.all_eq_true]
  constructor
  · intro h s hs
    simpa using h s hs
  · intro h s hs
    simpa using h s hs

theorem any_triggered_iff (l : List BatchStatus) :
    (l.any fun s => s == BatchStatus.TRIGGERED) = true ↔ ∃ s ∈ l, s = .TRIGGERED := by
  rw [List.any_eq_true]
  constructor
  · intro ⟨s, hs, hb⟩
    exact ⟨s, hs, by simpa using hb⟩
  · intro ⟨s, hs, hb⟩
    exact ⟨s, hs, by simpa using hb⟩

theorem computeStatus_spec (l : List BatchStatus) :
    (computeStatus l = .COMPLETED ↔ ∀ s ∈ l, s = .COMPLETED) ∧
    (computeStatus l = .TRIGGERED ↔
      ¬ (∀ s ∈ l, s = .COMPLETED) ∧ ∃ s ∈ l, s = .TRIGGERED) ∧
    (computeStatus l = .YET_TO_START ↔
      ¬ (∀ s ∈ l, s = .COMPLETED) ∧ ¬ ∃ s ∈ l, s = .TRIGGERED) := by
  unfold computeStatus
  by_cases hall : (l.all fun s => s == BatchStatus.COMPLETED) = true
  · have hA : ∀ s ∈ l, s = .COMPLETED := (all_completed_iff l).mp hall
    rw [if_pos hall]
    exact ⟨⟨fun _ => hA, fun _ => rfl⟩,
           ⟨fun hEq => absurd hEq (by decide), fun h => absurd hA h.1⟩,
           ⟨fun hEq => absurd hEq (by decide), fun h => absurd hA h.1⟩⟩
  · have hA : ¬ ∀ s ∈ l, s = .COMPLETED := fun h => hall ((all_completed_iff l).mpr h)
    rw [if_neg hall]
    by_cases hany : (l.any fun s => s == BatchStatus.TRIGGERED) = true
    · have hB : ∃ s ∈ l, s = .TRIGGERED := (any_triggered_iff l).mp hany
      rw [if_pos hany]
      exact ⟨⟨fun hEq => absurd hEq (by decide), fun h => absurd h hA⟩,
             ⟨fun _ => ⟨hA, hB⟩, fun _ => rfl⟩,
             ⟨fun hEq => absurd hEq (by decide), fun h => absurd hB h.2⟩⟩
    · have hB : ¬ ∃ s ∈ l, s = .TRIGGERED := fun h => hany ((any_triggered_iff l).mpr h)
      rw [if_neg hany]
      exact ⟨⟨fun hEq => absurd hEq (by decide), fun h => absurd h hA⟩,
             ⟨fun hEq => absurd hEq (by decide), fun h => absurd h.2 hB⟩,
             ⟨fun _ => ⟨hA, hB⟩, fun _ => rfl⟩⟩

theorem forall_map_status {l : List (String × Batch)} {c : BatchStatus} :
    (∀ s ∈ l.map fun p => p.2.status, s = c) ↔ ∀ p ∈ l, p.2.status = c := by
  constructor
  · intro h p hp
    exact h _ (List.mem_map.mpr ⟨p, hp, rfl⟩)
  · intro h s hs
    obtain ⟨p, hp, hps⟩ := List.mem_map.mp hs
    rw [← hps]
    exact h p hp

theorem exists_map_status {l : List (String × Batch)} {c : BatchStatus} :
    (∃ s ∈ l.map fun p => p.2.status, s = c) ↔ ∃ p ∈ l, p.2.status = c := by
  constructor
  · intro hx
    obtain ⟨s, hs, hsc⟩ := hx
    obtain ⟨p, hp, hps⟩ := List.mem_map.mp hs
    exact ⟨p, hp, by rw [hps, hsc]⟩
  · intro hx
    obtain ⟨p, hp, hpc⟩ := hx
    exact ⟨p.2.status, List.mem_map.mpr ⟨p, hp, rfl⟩, hpc⟩

theorem startTimesFrom_length (t : Nat) (bs : List (List Int)) :
    (startTimesFrom t bs).length = bs.length := by
  induction bs generalizing t with
  | nil => rfl
  | cons b rest ih => simp [startTimesFrom, ih]

theorem startTimesFrom_lower (bs : List (List Int)) :
    ∀ (t i : Nat), i < bs.length → t + 50 * i ≤ (startTimesFrom t bs).getD i 0 := by
  induction bs with
  | nil =>
    intro t i h
    simp at h
  | cons b rest ih =>
    intro t i h
    cases i with
    | zero => simp [startTimesFrom]
    | succ j =>
      have hj : j < rest.length := by simpa using h
      have := ih (t + batchDuration b + 50) j hj
      rw [startTimesFrom]
      simp only [List.getD_cons_succ]
      omega

theorem startTimesFrom_gap (bs : List (List Int)) :
    ∀ (t i : Nat), i + 1 < bs.length →
      (startTimesFrom t bs).getD i 0 + 50 ≤ (startTimesFrom t bs).getD (i + 1) 0 := by
  induction bs with
  | nil =>
    intro t i h
    simp at h
  | cons b rest ih =>
    intro t i h
    cases i with
    | zero =>
      cases rest with
      | nil => simp at h
      | cons b2 rest2 =>
        rw [startTimesFrom, startTimesFrom]
        simp only [List.getD_cons_zero, List.getD_cons_succ, List.getD_cons_zero]
        omega
    | succ j =>
      have hj : j + 1 < rest.length := by simpa using h
      have := ih (t + batchDuration b + 50) j hj
      rw [startTimesFrom]
      simp only [List.getD_cons_succ]
      exact this

/-- C1: the claim says a waiting HIGH batch is dequeued strictly before any
remaining MEDIUM batch. The code pushes `-priority_value` (HIGH ↦ -0 = 0,
MEDIUM ↦ -1) onto `heapq`, a min-heap, so the MEDIUM tuple is the smaller
one and `heappop` returns it first: after enqueuing a MEDIUM job and then a
HIGH job, the popped entry belongs to the MEDIUM job. The source's own
comment ("Negative priority for max-heap behavior") and its
test_priority_handling expect the opposite, so this is a bug in the code,
not in the claim. -/
theorem c1_priority_inverted :
    stC1.taskQueue =
      [{ negPriority := -1, ingestionId := "job-med", batchId := "batch-med", ids := [1, 2, 3] },
       { negPriority := 0, ingestionId := "job-high", batchId := "batch-high", ids := [4, 5, 6] }] ∧
    (heapPop stC1.taskQueue).map (fun p => p.1.ingestionId) = some "job-med" :=
  ⟨by decide, by decide⟩

/-- C2 counterexample: two MEDIUM jobs are enqueued in the order "job-b"
then "job-a"; the heap ties on priority and falls through to the uuid string
components of the tuples, so `heappop` returns the later-enqueued "job-a"
entry first — equal-priority dequeue order is not insertion order (FIFO),
refuting the claim as stated. -/
theorem c2_fifo_counterexample :
    stC2.taskQueue = [eBC2, eAC2] ∧ heapPop stC2.taskQueue = some (eAC2, [eBC2]) :=
  ⟨by decide, by decide⟩

/-- C2 (amended): dequeue removes an entry that is least in the lexicographic
order of the full tuple (-priority_value, ingestion_id, batch_id, ids) fixed
at enqueue time, and leaves the rest of the queue intact as a multiset; among
equal priorities this tie-break is the uuid4 string order, which is
independent of insertion order, so FIFO is not guaranteed. -/
theorem c2_dequeue_least (q : List QueueEntry) (e : QueueEntry) (rest : List QueueEntry)
    (h : heapPop q = some (e, rest)) :
    e ∈ q ∧ (∀ y ∈ q, entryLt y e = false) ∧ q.Perm (e :: rest) :=
  ⟨(heapPop_eq_some h).1, heapPop_min h, heapPop_perm h⟩

theorem c2_dequeue_least_witness :
    eAC2 ∈ stC2.taskQueue ∧ entryLt eBC2 eAC2 = false ∧
      stC2.taskQueue.Perm (eAC2 :: [eBC2]) :=
  ⟨(c2_dequeue_least stC2.taskQueue eAC2 [eBC2] (by decide)).1,
   (c2_dequeue_least stC2.taskQueue eAC2 [eBC2] (by decide)).2.1 eBC2 (by decide),
   (c2_dequeue_least stC2.taskQueue eAC2 [eBC2] (by decide)).2.2⟩

/-- C3: the recomputed job status is COMPLETED iff every batch of the job is
COMPLETED; TRIGGERED iff not all batches are COMPLETED and at least one is
TRIGGERED; and YET_TO_START otherwise. -/
theorem c3_status_aggregation (job : Job) :
    ((update_ingestion_status job).status = .COMPLETED ↔
      ∀ p ∈ job.batches, p.2.status = .COMPLETED) ∧
    ((update_ingestion_status job).status = .TRIGGERED ↔
      ¬ (∀ p ∈ job.batches, p.2.status = .COMPLETED) ∧
        ∃ p ∈ job.batches, p.2.status = .TRIGGERED) ∧
    ((update_ingestion_status job).status = .YET_TO_START ↔
      ¬ (∀ p ∈ job.batches, p.2.status = .COMPLETED) ∧
        ¬ ∃ p ∈ job.batches, p.2.status = .TRIGGERED) := by
  have h := computeStatus_spec (job.batches.map fun p => p.2.status)
  have hstat : (update_ingestion_status job).status =
      computeStatus (job.batches.map fun p => p.2.status) := rfl
  rw [hstat, h.1, h.2.1, h.2.2, forall_map_status, exists_map_status]
  exact ⟨Iff.rfl, Iff.rfl, Iff.rfl⟩

/-- C4: a successful ingest of n ids (1 ≤ n ≤ 1000) creates a job whose
batches, in creation order, are exactly the consecutive groups of 3 produced
by the slicing loop: (n+2)/3 = ceil(n/3) of them, each holding 1 to 3 ids,
and their concatenation is the original ids list. -/
theorem c4_batching (st : SysState) (ids : List Int) (prio : Priority) (iid : String)
    (bids : List String) (now : Nat) (st2 : SysState) (rid : String)
    (_hn1 : 1 ≤ ids.length) (_hn2 : ids.length ≤ 1000)
    (hfresh : lookupJob st.ingestionJobs iid = none)
    (hlen : bids.length = (makeBatchLists ids).length)
    (hok : ingest_data st { ids := ids, priority := prio } iid bids now = .ok (st2, rid)) :
    ∃ job, lookupJob st2.ingestionJobs iid = some job ∧
      job.batches.length = (ids.length + 2) / 3 ∧
      (job.batches.map fun p => p.2.ids) = makeBatchLists ids ∧
      (job.batches.map fun p => p.2.ids).flatten = ids ∧
      ∀ g ∈ job.batches.map fun p => p.2.ids, 1 ≤ g.length ∧ g.length ≤ 3 := by
  obtain ⟨hrid, hjobs, hqueue, hflight, hval⟩ := ingest_data_ok_shape hok
  refine ⟨_, by rw [hjobs]; exact lookupJob_append_fresh hfresh _, ?_, ?_, ?_, ?_⟩
  · exact (mkBatches_length hlen).trans (makeBatchLists_length ids)
  · exact mkBatches_ids hlen
  · rw [mkBatches_ids hlen]
    exact makeBatchLists_flatten ids
  · rw [mkBatches_ids hlen]
    exact makeBatchLists_sizes ids

theorem c4_batching_witness :
    ∃ job, lookupJob stC4.ingestionJobs "job-c4" = some job ∧
      job.batches.length = (([1, 2, 3, 4, 5] : List Int).length + 2) / 3 ∧
      (job.batches.map fun p => p.2.ids) = makeBatchLists [1, 2, 3, 4, 5] ∧
      (job.batches.map fun p => p.2.ids).flatten = [1, 2, 3, 4, 5] ∧
      ∀ g ∈ job.batches.map fun p => p.2.ids, 1 ≤ g.length ∧ g.length ≤ 3 :=
  c4_batching initState [1, 2, 3, 4, 5] .MEDIUM "job-c4" ["batch-c4a", "batch-c4b"] 0 stC4
    "job-c4" (by decide) (by decide) (by decide) (by decide) rfl

/-- C5: any request containing an id outside [1, 10^9 + 7] is rejected: the
handler raises 400 with a detail naming an offending id (the first one the
validation loop meets), and because the exception fires before any mutation,
the job store and the queue are left exactly as they were. -/
theorem c5_validation (st : SysState) (req : IngestionRequest) (iid : String)
    (bids : List String) (now : Nat)
    (hbad : ∃ id ∈ req.ids, ¬ (1 ≤ id ∧ id ≤ 10 ^ 9 + 7)) :
    ∃ badId ∈ req.ids, ¬ (1 ≤ badId ∧ badId ≤ 10 ^ 9 + 7) ∧
      ingest_data st req iid bids now = .error
        { statusCode := 400, detail := "ID " ++ toString badId ++ " out of valid range" } ∧
      runIngest st req iid bids now = st := by
  obtain ⟨badId, hfind, hmem, hbadId⟩ := findInvalidId_of_bad req.ids hbad
  have herr : ingest_data st req iid bids now = .error
      { statusCode := 400, detail := "ID " ++ toString badId ++ " out of valid range" } := by
    unfold ingest_data
    rw [hfind]
  refine ⟨badId, hmem, hbadId, herr, ?_⟩
  unfold runIngest
  rw [herr]

theorem c5_validation_witness :
    ∃ badId ∈ ([0] : List Int), ¬ (1 ≤ badId ∧ badId ≤ 10 ^ 9 + 7) ∧
      ingest_data initState { ids := [0], priority := .MEDIUM } "j5" ["b5"] 0 = .error
        { statusCode := 400, detail := "ID " ++ toString badId ++ " out of valid range" } ∧
      runIngest initState { ids := [0], priority := .MEDIUM } "j5" ["b5"] 0 = initState :=
  c5_validation initState { ids := [0], priority := .MEDIUM } "j5" ["b5"] 0 (by decide)

/-- C6: `/status/{id}` responds 404 with detail "Ingestion ID not found"
exactly when the id is absent from the job store, responds 200 with the
job's current status and batches when it is present, and the only error it
can produce is that 404 — never an internal 500. -/
theorem c6_status_not_found (st : SysState) (iid : String) :
    (lookupJob st.ingestionJobs iid = none →
      get_status st iid = .error { statusCode := 404, detail := "Ingestion ID not found" }) ∧
    (∀ job, lookupJob st.ingestionJobs iid = some job →
      get_status st iid = .ok
        { ingestionId := iid, status := job.status,
          batches := job.batches.map fun p =>
            { batchId := p.1, ids := p.2.ids, status := p.2.status } }) ∧
    (∀ err, get_status st iid = .error err →
      err.statusCode = 404 ∧ err.detail = "Ingestion ID not found") := by
  refine ⟨?_, ?_, ?_⟩
  · intro h
    unfold get_status
    rw [h]
  · intro job h
    unfold get_status
    rw [h]
  · intro err herr
    unfold get_status at herr
    cases hj : lookupJob st.ingestionJobs iid with
    | none =>
      rw [hj] at herr
      simp at herr
      rw [← herr]
      exact ⟨rfl, rfl⟩
    | some job =>
      rw [hj] at herr
      simp at herr

theorem c6_status_witness :
    get_status stC6 "missing" =
      .error { statusCode := 404, detail := "Ingestion ID not found" } ∧
    get_status stC6 "job-x" = .ok
      { ingestionId := "job-x", status := .YET_TO_START,
        batches := [{ batchId := "batch-x", ids := [7], status := .YET_TO_START }] } :=
  ⟨(c6_status_not_found stC6 "missing").1 (by decide),
   by
    have h := (c6_status_not_found stC6 "job-x").2.1 jobC6 (by decide)
    rw [h]
    rfl⟩

/-- C7: every operation of the system taken from a reachable state moves each
existing batch's status only forward along
YET_TO_START < TRIGGERED < COMPLETED (measured by `statusRank`); in
particular a COMPLETED batch stays COMPLETED forever. -/
theorem c7_batch_status_monotone {s s2 : SysState} (hreach : Reachable s) (hstep : Step s s2)
    {iid bid : String} {b : BatchStatus}
    (hb : batchStatusOf s.ingestionJobs iid bid = some b) :
    ∃ b2, batchStatusOf s2.ingestionJobs iid bid = some b2 ∧
      statusRank b ≤ statusRank b2 ∧ (b = .COMPLETED → b2 = .COMPLETED) :=
  step_batch_monotone (inv_of_reachable hreach) hstep hb

theorem c7_batch_status_monotone_witness :
    ∃ b2, batchStatusOf s2c7.ingestionJobs "job-0" "batch-0" = some b2 ∧
      statusRank .YET_TO_START ≤ statusRank b2 ∧
      (BatchStatus.YET_TO_START = .COMPLETED → b2 = .COMPLETED) :=
  c7_batch_status_monotone
    (Relation.ReflTransGen.single
      (Step.ingest initState reqC7 "job-0" ["batch-0"] 0 s1c7 "job-0"
        (by decide) (by decide) (by decide) rfl))
    (Step.startBatch s1c7 e1c7 [] rfl (by decide))
    (by decide)

/-- C8: recomputing the aggregate job status is idempotent — the
recomputation reads only the batches, which it never modifies, so a second
application returns the same job. -/
theorem c8_recompute_idempotent (job : Job) :
    update_ingestion_status (update_ingestion_status job) = update_ingestion_status job := by
  cases job
  rfl

/-- C9: in the logical-time model of the worker loop (each `asyncio.sleep`
advances the clock; units are deciseconds), consecutive batches of a backlog
start at least 50 ds = 5 s apart, and the (i+1)-th batch cannot start before
50·(i+1) ds — hence processing N batches takes at least (N−1)·5 seconds of
wall-clock time. -/
theorem c9_rate_limit (bs : List (List Int)) (i : Nat) (hi : i + 1 < bs.length) :
    (startTimesFrom 0 bs).getD i 0 + 50 ≤ (startTimesFrom 0 bs).getD (i + 1) 0 ∧
    50 * (i + 1) ≤ (startTimesFrom 0 bs).getD (i + 1) 0 := by
  refine ⟨startTimesFrom_gap bs 0 i hi, ?_⟩
  have := startTimesFrom_lower bs 0 (i + 1) hi
  omega

theorem c9_rate_limit_witness :
    (startTimesFrom 0 [[1, 2, 3], [4, 5, 6], [7, 8]]).getD 1 0 + 50 ≤
      (startTimesFrom 0 [[1, 2, 3], [4, 5, 6], [7, 8]]).getD 2 0 ∧
    50 * 2 ≤ (startTimesFrom 0 [[1, 2, 3], [4, 5, 6], [7, 8]]).getD 2 0 :=
  c9_rate_limit [[1, 2, 3], [4, 5, 6], [7, 8]] 1 (by decide)

/-- C10: recomputing the status of a job whose batches dict is empty yields
COMPLETED, because `all` over an empty collection is vacuously true; and the
case is unreachable through /ingest, whose nonempty ids list always produces
at least one batch group. -/
theorem c10_empty_batches :
    (∀ job : Job, job.batches = [] → (update_ingestion_status job).status = .COMPLETED) ∧
    (∀ ids : List Int, ids ≠ [] → makeBatchLists ids ≠ []) := by
  constructor
  · intro job hj
    have hstat : (update_ingestion_status job).status =
        computeStatus (job.batches.map fun p => p.2.status) := rfl
    rw [hstat, hj]
    rfl
  · intro ids h
    exact makeBatchLists_ne_nil h

theorem c10_empty_batches_witness :
    (update_ingestion_status jobC10).status = .COMPLETED ∧ makeBatchLists [9] ≠ [] :=
  ⟨c10_empty_batches.1 jobC10 rfl, c10_empty_batches.2 [9] (by decide)⟩

end Loopai
